import Mathlib

/-!
Verification development for the `gen` / `gen-full` actions of the llmstxt
command-line generator (source file `src/cli/actions/gen.js`).

The JavaScript source is shallowly embedded: pure helper functions become Lean
functions over `String` / `List Char`; code that can throw becomes
`Except String`-valued; `null`/`undefined` become `Option`; external
collaborators (the undici HTTP client, cheerio HTML querying, picomatch glob
matching, turndown HTML-to-markdown conversion, the JS regular-expression
`replace` builtin) enter as oracle parameters collected in an environment
structure, exactly at the narrow interfaces the source consumes.
-/

/-- Character class of the JavaScript regular-expression escape `\s`, which is
also the character set removed by `String.prototype.trim` (WhiteSpace plus
LineTerminator). -/
def isJsWs (c : Char) : Bool :=
  c == ' ' || c == '\t' || c == '\n' || c == '\r' || c == '\x0b' || c == '\x0c' ||
  c == '\u00A0' || c == '\u1680' || ('\u2000' ≤ c && c ≤ '\u200A') ||
  c == '\u2028' || c == '\u2029' || c == '\u202F' || c == '\u205F' ||
  c == '\u3000' || c == '\uFEFF'

/-- JavaScript `a || b` on strings, where the empty string is the only falsy
string value. -/
def jsOr (a b : String) : String :=
  if a = "" then b else a

/-- JavaScript template-literal interpolation of a possibly-`undefined` value:
`undefined` prints as the text `undefined`. -/
def jsShowUndef : Option String → String
  | some s => s
  | none => "undefined"

/-- JavaScript `String.prototype.split(sep)` on a single-character separator,
expressed on character lists. Always returns at least one (possibly empty)
piece. -/
def splitChar (sep : Char) : List Char → List (List Char)
  | [] => [[]]
  | c :: rest =>
    match splitChar sep rest with
    | [] => [[]]
    | s :: ss => if c == sep then [] :: s :: ss else (c :: s) :: ss

/-- Flag characters accepted by the substitution-command pattern, the regex
character class `[gimsuy]` in `parseSubstitutionCommand`. -/
def isFlagChar (c : Char) : Bool :=
  c == 'g' || c == 'i' || c == 'm' || c == 's' || c == 'u' || c == 'y'

/-- The JavaScript LineTerminator class: the characters the regex dot `.`
refuses to match (without the `s` flag). -/
def isJsLineTerm (c : Char) : Bool :=
  c == '\n' || c == '\r' || c == '\u2028' || c == '\u2029'

/-- Backtracking search for the lazy group split `(.*?)\/([gimsuy]*)$`: finds
the shortest replacement prefix followed by `/` and a flags-only suffix. The
dot of the source regex matches no line terminator, so the replacement may
not contain one. -/
def findRepl : List Char → Option (List Char × List Char)
  | [] => none
  | c :: t =>
    if c == '/' && t.all isFlagChar then some ([], t)
    else if isJsLineTerm c then none
    else (findRepl t).map (fun p => (c :: p.1, p.2))

/-- Backtracking search for the lazy split `(.*?)\/(.*?)\/([gimsuy]*)$`: the
shortest pattern prefix followed by `/` and a match of `findRepl`. -/
def findPat : List Char → Option (List Char × List Char × List Char)
  | c :: t =>
    match (if c == '/' then (findRepl t).map (fun q => (([] : List Char), q.1, q.2)) else none) with
    | some r => some r
    | none =>
      if isJsLineTerm c then none
      else (findPat t).map (fun q => (c :: q.1, q.2.1, q.2.2))
  | [] => none

/-- Model of `command.match(/^s\/(.*?)\/(.*?)\/([gimsuy]*)$/)` from
`parseSubstitutionCommand`: on success yields the captured pattern,
replacement and flags strings. -/
def matchSubstCmd (command : String) : Option (String × String × String) :=
  match command.data with
  | 's' :: '/' :: rest =>
    (findPat rest).map (fun q => (q.1.asString, q.2.1.asString, q.2.2.asString))
  | _ => none

/-- Embedding of `parseSubstitutionCommand(command)` from gen.js: match the
command against the substitution regex, throwing on a failed match, then
compile `new RegExp(pattern, flags)`. The regex engine is an external
collaborator: the oracle `rc pattern flags` tells whether the constructor
succeeds (it is false for invalid patterns such as an unmatched parenthesis,
and for invalid flag strings such as repeated flags), and a failed
compilation throws, modeled with a fixed SyntaxError message. The compiled
regex value itself is consumed only through the `String.prototype.replace`
builtin, modeled by the `regexReplace` oracle, so the pattern and flags are
kept as strings here. -/
def parseSubstitutionCommand (rc : String → String → Bool) (command : String) :
    Except String (String × String × String) :=
  match matchSubstCmd command with
  | some q =>
    if rc q.1 q.2.2 then .ok q
    else .error "SyntaxError: invalid regular expression"
  | none => .error "Invalid substitution command format"

/-- JavaScript `command.startsWith("s/")`, expressed on the character list. -/
def startsWithS2 (s : String) : Bool :=
  match s.data with
  | c1 :: c2 :: _ => c1 == 's' && c2 == '/'
  | _ => false

/-- Embedding of `substituteTitle(title, command)` from gen.js. The guard
`!command || command.length < 1 || !command.startsWith(s-slash)` returns the
title unchanged; otherwise the command is parsed (possibly throwing) and the
title rewritten through the JS regex-replace builtin, provided as the oracle
`rr pattern flags replacement title`. -/
def substituteTitle (rr : String → String → String → String → String)
    (rc : String → String → Bool)
    (title command : String) : Except String String :=
  if command.data.isEmpty || command.data.length < 1 || !(startsWithS2 command) then
    .ok title
  else do
    let q ← parseSubstitutionCommand rc command
    .ok (rr q.1 q.2.2 q.2.1 title)

/-- Model of the regex replacement `title.replace(/^\|\s*/, "")` inside
`cleanTitle`: when the string begins with a pipe, drop it and the following
whitespace run. -/
def stripLeadBar (s : String) : String :=
  match s.data with
  | '|' :: rest => (rest.dropWhile isJsWs).asString
  | _ => s

/-- JavaScript `String.prototype.trim()`: drop JS whitespace from the front,
then from the back (via reversal). -/
def jsTrim (s : String) : String :=
  (((s.data.dropWhile isJsWs).reverse.dropWhile isJsWs).reverse).asString

/-- Embedding of `cleanTitle(title)` from gen.js: empty (falsy) titles map to
the empty string, otherwise strip the leading pipe prefix and trim. -/
def cleanTitle (title : String) : String :=
  if title = "" then "" else jsTrim (stripLeadBar title)

/-- Specification-side cleanup, following the spec wording: strip a single
leading `|` and the whitespace after it, then trim surrounding whitespace,
here trimming the right end before the left end. -/
def trimSpecRL (s : List Char) : List Char :=
  ((s.reverse.dropWhile isJsWs).reverse).dropWhile isJsWs

/-- Specification-side pipe stripping: when the first character is a pipe,
drop it and the whitespace following it. -/
def stripBarSpec (s : String) : List Char :=
  if s.data.head? = some '|' then (s.data.drop 1).dropWhile isJsWs else s.data

/-- Specification-side title cleanup: pipe strip, then right trim, then left
trim. -/
def cleanTitleSpec (s : String) : String :=
  (trimSpecRL (stripBarSpec s)).asString

/-- Scheme characters of a URI, used by the restricted WHATWG URL model. -/
def isSchemeChar (c : Char) : Bool :=
  c.isAlphanum || c == '+' || c == '-' || c == '.'

/-- Restricted model of Node `new URL(uri).pathname` (an external platform
collaborator): it covers hierarchical `scheme://host/path?query#fragment`
URIs, returning `/` when the path part is empty; every other input shape is
modeled as a parse failure (`none`), standing for the constructor throwing. -/
def urlPathname (uri : String) : Option String :=
  let cs := uri.data
  let scheme := cs.takeWhile isSchemeChar
  let rest := cs.dropWhile isSchemeChar
  match scheme, rest with
  | s0 :: _, ':' :: '/' :: '/' :: hostRest =>
    if s0.isAlpha then
      let host := hostRest.takeWhile (fun c => c != '/' && c != '?' && c != '#')
      let after := hostRest.dropWhile (fun c => c != '/' && c != '?' && c != '#')
      if host.isEmpty then none
      else
        let path := after.takeWhile (fun c => c != '?' && c != '#')
        some (if path.isEmpty then "/" else path.asString)
    else none
  | _, _ => none

/-- Embedding of `parseSection(uri)` from gen.js: split the pathname on `/`,
drop the empty (falsy) segments, and return the first segment, defaulting to
`ROOT`; a URL-parse failure is caught and also yields `ROOT`. -/
def parseSection (uri : String) : String :=
  match urlPathname uri with
  | none => "ROOT"
  | some pathname =>
    match (splitChar '/' pathname.data).filter (fun s => !s.isEmpty) with
    | [] => "ROOT"
    | seg :: _ => seg.asString

/-- Specification-side first path segment: skip the leading slashes and take
the characters up to the next slash; `none` when no segment remains. -/
def specFirstSeg (cs : List Char) : Option (List Char) :=
  match cs.dropWhile (· == '/') with
  | [] => none
  | d :: ds => some ((d :: ds).takeWhile (· != '/'))

/-- Specification-side section key of a pathname: its first non-empty path
segment, case preserved, or the reserved key `ROOT`. -/
def firstSegmentSpec (pathname : String) : String :=
  match specFirstSeg pathname.data with
  | none => "ROOT"
  | some s => s.asString

/-- The Unicode case-mapping collaborators of JavaScript,
`String.prototype.toUpperCase` and `String.prototype.toLowerCase`. Strings
are modeled as code-point sequences, so the `charAt(0)`/`slice(1)` split of
the source acts at the code-point level. -/
structure JsCase where
  toUpper : String → String
  toLower : String → String

/-- Embedding of `capitalizeString(str)` from gen.js: the first character
upper-cased and the remainder lower-cased through the JS case-mapping
builtins; empty input maps to the empty string. -/
def capitalizeString (jc : JsCase) (s : String) : String :=
  match s.data with
  | [] => ""
  | c :: rest => jc.toUpper (String.mk [c]) ++ jc.toLower (String.mk rest)

/-- Embedding of the anchor computation of `genFull`:
`title.toLowerCase().replace(/[^a-z0-9]+/g, "-")` — each maximal run of
characters outside `[a-z0-9]` collapses to a single dash. -/
def isLowerAlnum (c : Char) : Bool :=
  ('a' ≤ c && c ≤ 'z') || ('0' ≤ c && c ≤ '9')

/-- Collapse maximal runs of non-`[a-z0-9]` characters to one dash each. -/
def collapseNonAlnum : List Char → List Char
  | [] => []
  | c :: rest =>
    if isLowerAlnum c then c :: collapseNonAlnum rest
    else '-' :: collapseNonAlnum (rest.dropWhile (fun d => !isLowerAlnum d))
termination_by cs => cs.length
decreasing_by
  · simp
  · have hlen : ∀ (l : List Char), (l.dropWhile (fun d => !isLowerAlnum d)).length ≤ l.length := by
      intro l
      induction l with
      | nil => simp
      | cons a l ih =>
        simp only [List.dropWhile_cons]
        split
        · exact Nat.le_succ_of_le ih
        · simp
    have h := hlen rest
    simp
    omega

/-- Anchor slug of a page title in `genFull`. -/
def anchorOf (t : String) : String :=
  (collapseNonAlnum (t.data.map Char.toLower)).asString

/-! ## Batch Scheduler (`processInBatches`)

The processor may throw (reject), modeled by `Except`; a rejection inside a
batch rejects the whole `Promise.all` and propagates out, which `Except`
sequencing reproduces. Within a chunk the source launches the item pipelines
concurrently and `Promise.all` collects their results index-keyed, so the
deterministic model evaluates them in index order. -/

/-- Evaluation of one batch: the source `batch.map(async (item, index) =>
processor(item, i + index))` collected by `Promise.all`, which preserves the
index order of the batch and rejects when a member rejects. -/
def mapBatch {α β ε : Type} (proc : α → Nat → Except ε (Option β)) :
    Nat → List α → Except ε (List (Option β))
  | _, [] => .ok []
  | i, x :: xs => do
    let r ← proc x i
    let rs ← mapBatch proc (i + 1) xs
    .ok (r :: rs)

/-- The chunking loop of `processInBatches`: slice the items into consecutive
chunks of size at most `c` (`items.slice(i, i + concurrency)`), evaluate each
chunk, and concatenate the per-chunk result arrays in order. -/
def processBatches {α β ε : Type} (proc : α → Nat → Except ε (Option β)) (c : Nat) :
    List α → Nat → Except ε (List (Option β))
  | [], _ => .ok []
  | x :: xs, i => do
    let batch ← mapBatch proc i ((x :: xs).take c)
    let rest ← processBatches proc c (xs.drop (c - 1)) (i + c)
    .ok (batch ++ rest)
termination_by items _ => items.length
decreasing_by simp [List.length_drop]; omega

/-- Embedding of `processInBatches(items, processor, concurrency)` from gen.js:
run the chunked loop from index 0 and then drop the falsy (null) results, the
final `results.filter(Boolean)`. -/
def processInBatches {α β ε : Type} (items : List α)
    (proc : α → Nat → Except ε (Option β)) (c : Nat) : Except ε (List β) :=
  (processBatches proc c items 0).map (fun rs => rs.filterMap id)

/-- The chunk decomposition performed by the scheduling loop, by itself:
consecutive slices of length at most `c`. -/
def chunksOf {α : Type} (c : Nat) : List α → List (List α)
  | [] => []
  | x :: xs => ((x :: xs).take c) :: chunksOf c (xs.drop (c - 1))
termination_by items => items.length
decreasing_by simp [List.length_drop]; omega

/-- Specification-side chunked execution: the chunks are evaluated strictly in
order, each chunk finishing (its batch fully evaluated) before the next chunk
starts, with the running index advanced by the chunk length. -/
def chunkedRun {α β ε : Type} (proc : α → Nat → Except ε (Option β)) :
    List (List α) → Nat → Except ε (List (Option β))
  | [], _ => .ok []
  | b :: bs, i => do
    let r ← mapBatch proc i b
    let rest ← chunkedRun proc bs (i + b.length)
    .ok (r ++ rest)

/-- Specification-side indexed map: the value computed for item `i` of the
input, before any filtering. -/
def pureMapIdx {α β : Type} (f : α → Nat → Option β) : Nat → List α → List (Option β)
  | _, [] => []
  | i, x :: xs => f x i :: pureMapIdx f (i + 1) xs

/-! ## Crawl environment and the per-URL pipeline of `gen` -/

/-- Oracles for the external collaborators consumed by the per-URL pipelines,
together with the run configuration. `fetchHtml` models the undici-based
fetch, already wrapped by its own try/catch: `none` is the caught network
failure (null). `getTitle` and `getDescription` model the cheerio-based
extractors, likewise returning `none` on their caught failures or a missing
description; the title oracle returns the already-trimmed text of the title
element, which may be empty. `globMatch pattern s` is the picomatch matcher
for a single pattern. `selectMain` models the main-content selector chain of
`genFull` (`none` when every selector produced a falsy fragment), `turndown`
the HTML-to-markdown conversion, and `lastmod` the sitemap lastmod lookup.
`regexReplace pattern flags replacement title` is the JS `replace` builtin,
and `regexCompiles pattern flags` tells whether `new RegExp(pattern, flags)`
succeeds in the JS regex engine. -/
structure CrawlEnv where
  excludePaths : List String
  includePaths : List String
  globMatch : String → String → Bool
  fetchHtml : String → Option String
  getTitle : String → Option String
  getDescription : String → Option String
  replaceTitle : List String
  regexReplace : String → String → String → String → String
  regexCompiles : String → String → Bool
  selectMain : String → Option String
  turndown : String → String
  lastmod : String → Option String

/-- Matching a URL against a compiled pattern list, `picomatch(patterns)`:
true when some pattern matches. -/
def picomatchAny (gm : String → String → Bool) (pats : List String) (s : String) : Bool :=
  pats.any (fun p => gm p s)

/-- Modelled from the spec (consumed picomatch interface, `compile(patterns,
{ignore?}) -> matchFn`): with an ignore list, a string matches when some
pattern matches it and no ignore pattern does. -/
def picomatchIgnoring (gm : String → String → Bool)
    (pats ignorePats : List String) (s : String) : Bool :=
  picomatchAny gm pats s && !(picomatchAny gm ignorePats s)

/-- The compiled `isExcluded = picomatch(excludePaths)` of gen.js. -/
def isExcluded (env : CrawlEnv) (url : String) : Bool :=
  picomatchAny env.globMatch env.excludePaths url

/-- The compiled `isIncluded = picomatch(includePaths, { ignore: excludePaths })`
of gen.js. -/
def isIncluded (env : CrawlEnv) (url : String) : Bool :=
  picomatchIgnoring env.globMatch env.includePaths env.excludePaths url

/-- The two filtering guards at the head of `processUrl`: a URL passes when it
is not excluded, and not effectively excluded by a non-empty include list. -/
def passesFilter (env : CrawlEnv) (url : String) : Bool :=
  if isExcluded env url then false
  else if decide (env.includePaths.length > 0) && !(isIncluded env url) then false
  else true

/-- The title rewriting of `processUrl`: fold the substitution commands over
the raw title in input order, then apply `cleanTitle`. -/
def rewriteAndClean (rr : String → String → String → String → String)
    (rc : String → String → Bool)
    (cmds : List String) (title : String) : Except String String := do
  let t ← cmds.foldlM (fun acc c => substituteTitle rr rc acc c) title
  .ok (cleanTitle t)

/-- A processed page of `gen`: the object `{title, url, description, section}`
returned by `processUrl`. The `section` property is named `sect` here because
`section` is reserved in Lean. -/
structure PageResult where
  title : String
  url : String
  description : Option String
  sect : String
deriving DecidableEq, Repr

/-- Embedding of the `processUrl` closure of `gen` (gen.js lines 159-195):
filter, fetch, extract the title (falsy title is a skip), rewrite the title
(which may throw on a malformed command), extract the description and section.
A skip is `.ok none`; a throw escaping the closure is `.error`. The spinner
assignment is an external observable with no data flow and is omitted, so the
item index parameter of the source is dropped. -/
def processUrl (env : CrawlEnv) (url : String) : Except String (Option PageResult) :=
  if !(passesFilter env url) then .ok none
  else
    match env.fetchHtml url with
    | none => .ok none
    | some html =>
      if html.data.isEmpty then .ok none
      else
        match env.getTitle html with
        | none => .ok none
        | some t0 =>
          if t0.data.isEmpty then .ok none
          else do
            let title ← rewriteAndClean env.regexReplace env.regexCompiles env.replaceTitle t0
            let description := env.getDescription html
            let sect := parseSection url
            .ok (some { title := title, url := url, description := description, sect := sect })

/-! ## The per-URL pipeline of `genFull` -/

/-- A fully processed page of `genFull` (an element of `pageInfos`). -/
structure PageInfo where
  title : String
  url : String
  description : Option String
  markdown : String
  anchor : String
  lastmod : Option String
deriving DecidableEq, Repr

/-- A skip record of `genFull` (an element of `skipped`). -/
structure SkipRec where
  url : String
  reason : String
deriving DecidableEq, Repr

/-- The mutable accumulators of `genFull`: the `skipped` and `pageInfos`
arrays closed over by its `processUrl`. -/
structure FullState where
  skipped : List SkipRec
  pageInfos : List PageInfo
deriving DecidableEq, Repr

/-- Embedding of the `processUrl` closure of `genFull` (gen.js lines 293-318).
Each skip branch pushes one `SkipRec` and returns null (`false`); the success
path pushes one `PageInfo` and returns `true`; a malformed substitution
command throws out of the closure (`.error`). -/
def processUrlFull (env : CrawlEnv) (st : FullState) (url : String) :
    Except String (FullState × Bool) :=
  if isExcluded env url then
    .ok ({ st with skipped := st.skipped ++ [⟨url, "excluded"⟩] }, false)
  else if decide (env.includePaths.length > 0) && !(isIncluded env url) then
    .ok ({ st with skipped := st.skipped ++ [⟨url, "not included"⟩] }, false)
  else
    match env.fetchHtml url with
    | none => .ok ({ st with skipped := st.skipped ++ [⟨url, "fetch failed"⟩] }, false)
    | some html =>
      if html.data.isEmpty then
        .ok ({ st with skipped := st.skipped ++ [⟨url, "fetch failed"⟩] }, false)
      else
        match env.getTitle html with
        | none => .ok ({ st with skipped := st.skipped ++ [⟨url, "no title"⟩] }, false)
        | some t0 =>
          if t0.data.isEmpty then
            .ok ({ st with skipped := st.skipped ++ [⟨url, "no title"⟩] }, false)
          else do
            let title ← rewriteAndClean env.regexReplace env.regexCompiles env.replaceTitle t0
            let mainHtml := match env.selectMain html with
              | some h => h
              | none => html
            let markdown := env.turndown mainHtml
            let anchor := anchorOf title
            let pi : PageInfo :=
              { title := title, url := url, description := env.getDescription html,
                markdown := markdown, anchor := anchor, lastmod := env.lastmod url }
            .ok ({ st with pageInfos := st.pageInfos ++ [pi] }, true)

/-- The `genFull` crawl over the sitemap URL list. The source drives the
closure through `processInBatches`; the pushes onto `skipped` and `pageInfos`
are modeled sequentially in index order (the deterministic rendering of
within-chunk completion order); the counting invariants proved about this run
do not depend on that order. A rejection propagates and aborts the run, as it
does through `Promise.all` in the source. -/
def runFull (env : CrawlEnv) : List String → FullState → Except String FullState
  | [], st => .ok st
  | u :: us, st => do
    let r ← processUrlFull env st u
    runFull env us r.1

/-! ## Aggregator (index-mode output assembly of `gen`, gen.js lines 200-248) -/

/-- A bullet line of the index output: the object `{title, url, description}`
pushed onto `sections[section]`. -/
structure SectionLine where
  title : String
  url : String
  description : Option String
deriving DecidableEq, Repr

/-- Projection of a `PageResult` onto the pushed line. -/
def lineOf (r : PageResult) : SectionLine :=
  ⟨r.title, r.url, r.description⟩

/-- One step of the accumulation loop: `sections[section] ||= [];
sections[section].push(line)`. The JS object is modeled as an association
list in property-creation order with unique keys. -/
def addToSection (secs : List (String × List SectionLine)) (k : String)
    (v : SectionLine) : List (String × List SectionLine) :=
  match secs with
  | [] => [(k, [v])]
  | (k2, vs) :: rest =>
    if k2 == k then (k2, vs ++ [v]) :: rest else (k2, vs) :: addToSection rest k v

/-- Own property names of `Object.prototype`: the keys a plain-object
property read finds through the prototype chain, all with truthy values
(functions, and the prototype object itself for the dunder proto key). -/
def isProtoPropName (s : String) : Bool :=
  s == "constructor" || s == "hasOwnProperty" || s == "isPrototypeOf" ||
  s == "propertyIsEnumerable" || s == "toLocaleString" || s == "toString" ||
  s == "valueOf" || s == "__defineGetter__" || s == "__defineSetter__" ||
  s == "__lookupGetter__" || s == "__lookupSetter__" || s == "__proto__"

/-- The accumulation loop over the scheduler results (gen.js 200-211), with
JS plain-object semantics: `sections[section] ||= []` reads through the
prototype chain, so a section name that is an `Object.prototype` property
yields a truthy inherited value, the initialization is skipped, and the
following `.push` throws a TypeError. The throw is caught by the enclosing
try (gen.js 212), so grouping stops at that result — later results are
dropped — and the partial map is still used for the output. A section key
can become an own key only through the `||=` assignment, so an own key never
collides with a prototype name. -/
def buildSectionsGo : List PageResult → List (String × List SectionLine) →
    List (String × List SectionLine)
  | [], acc => acc
  | r :: rest, acc =>
    if isProtoPropName r.sect then acc
    else buildSectionsGo rest (addToSection acc r.sect (lineOf r))

/-- Grouping of the page results by section: keys in first-seen order, pages
in append order, stopping early at a prototype-named section. -/
def buildSections (results : List PageResult) : List (String × List SectionLine) :=
  buildSectionsGo results []

/-- Property lookup `sections[k]` on the association-list model. -/
def lookupSec (secs : List (String × List SectionLine)) (k : String) :
    Option (List SectionLine) :=
  match secs with
  | [] => none
  | (k2, vs) :: rest => if k2 == k then some vs else lookupSec rest k

/-- Property deletion `delete sections[k]` on the association-list model. -/
def eraseSec (secs : List (String × List SectionLine)) (k : String) :
    List (String × List SectionLine) :=
  secs.filter (fun p => p.1 != k)

/-- Decimal value of a digit string (helper for the array-index test). -/
def digitsToNat (cs : List Char) : Nat :=
  cs.foldl (fun n c => n * 10 + (c.toNat - 48)) 0

/-- Parse a non-empty all-digit string to its numeric value. -/
def strToNatQ (s : String) : Option Nat :=
  if !s.data.isEmpty && s.data.all Char.isDigit then some (digitsToNat s.data)
  else none

/-- Whether a JS object property key is an array index: the canonical decimal
form of an integer below 2^32 - 1. Such keys enumerate first, in ascending
numeric order, in `for...in`. -/
def isArrayIndexKey (s : String) : Bool :=
  match strToNatQ s with
  | some n => decide (n < 4294967295) && (toString n == s)
  | none => false

/-- Numeric value of an array-index key (0 for other keys). -/
def keyNat (s : String) : Nat :=
  (strToNatQ s).getD 0

/-- Insertion into a list sorted by `keyNat`. -/
def insertByNat (k : String) : List String → List String
  | [] => [k]
  | x :: xs => if keyNat k ≤ keyNat x then k :: x :: xs else x :: insertByNat k xs

/-- Ascending sort by `keyNat` (insertion sort). -/
def sortByNat : List String → List String
  | [] => []
  | x :: xs => insertByNat x (sortByNat xs)

/-- Enumeration order of `for (const k in obj)` over a plain JS object whose
own keys, in property-creation order, are `keys`: array-index keys first in
ascending numeric order, then the remaining string keys in creation order. -/
def jsForInKeys (keys : List String) : List String :=
  sortByNat (keys.filter isArrayIndexKey) ++ keys.filter (fun k => !isArrayIndexKey k)

/-- Specification-side first-seen key order: the section names in order of
first occurrence. -/
def firstSeen (l : List String) : List String :=
  l.foldl (fun acc x => if x ∈ acc then acc else acc ++ [x]) []

/-- The explicit `--title` / `--description` configuration of `gen`; the empty
string models an absent (undefined, falsy) option. -/
structure GenOptions where
  title : String
  description : String
deriving DecidableEq, Repr

/-- Rendering of one bullet line:
`- [title](url)` followed by `: description` when the description is truthy. -/
def renderLine (l : SectionLine) : String :=
  "\n- [" ++ l.title ++ "](" ++ l.url ++ ")" ++
    (match l.description with
     | some d => if d.data.isEmpty then "" else ": " ++ d
     | none => "")

/-- Rendering of one section block: capitalized heading then the bullets in
stored order. -/
def renderSection (jc : JsCase) (secs : List (String × List SectionLine))
    (k : String) : String :=
  "## " ++ capitalizeString jc k ++ "\n" ++
    String.join (((lookupSec secs k).getD []).map renderLine) ++ "\n\n"

/-- The header of the index document (gen.js lines 222-231): explicit options
win; otherwise the first ROOT page supplies title and description; with no
ROOT page the defaults apply. An absent description interpolates as the text
`undefined`, as in the source template literal. -/
def genHeader (opts : GenOptions) (root : List SectionLine) : String :=
  let rootTitle := match root with
    | [] => jsOr opts.title "Documentation"
    | r :: _ => r.title
  let headTitle := jsOr opts.title rootTitle
  let headDesc : Option String := match root with
    | [] => some (jsOr opts.description "Generated documentation")
    | r :: _ => r.description
  let headDesc := if opts.description = "" then headDesc else some opts.description
  "# " ++ headTitle ++ "\n\n" ++ "> " ++ jsShowUndef headDesc ++ "\n\n"

/-- The section keys the output loop walks: the grouped keys without `ROOT`,
in JS `for...in` enumeration order. -/
def genSectionKeys (results : List PageResult) : List String :=
  jsForInKeys ((eraseSec (buildSections results) "ROOT").map Prod.fst)

/-- Embedding of the output assembly of `gen` (gen.js lines 216-248): group
the results, pull out and delete the ROOT entry, emit the header and then one
block per remaining section in `for...in` order. -/
def genOutput (jc : JsCase) (opts : GenOptions) (results : List PageResult) : String :=
  let secs := buildSections results
  let root := (lookupSec secs "ROOT").getD []
  let secs2 := eraseSec secs "ROOT"
  genHeader opts root ++
    String.join ((genSectionKeys results).map (fun k => renderSection jc secs2 k))

/-! ## Helper lemmas -/

theorem except_bind_ok {ε α β : Type} (a : α) (f : α → Except ε β) :
    (Except.ok a >>= f) = f a := rfl

theorem except_bind_error {ε α β : Type} (e : ε) (f : α → Except ε β) :
    ((Except.error e : Except ε α) >>= f) = Except.error e := rfl

/-- Splitting an indexed batch evaluation at any position `k`. -/
theorem mapBatch_take_drop {α β ε : Type} (proc : α → Nat → Except ε (Option β)) :
    ∀ (l : List α) (i k : Nat),
      mapBatch proc i l =
        (mapBatch proc i (l.take k)) >>= (fun b =>
          (mapBatch proc (i + k) (l.drop k)) >>= (fun r => Except.ok (b ++ r))) := by
  intro l
  induction l with
  | nil =>
    intro i k
    simp [mapBatch, except_bind_ok]
  | cons x xs ih =>
    intro i k
    cases k with
    | zero =>
      simp only [List.take_zero, List.drop_zero, Nat.add_zero]
      cases hx : (mapBatch proc i (x :: xs) : Except ε (List (Option β))) with
      | error e => rfl
      | ok rs => rfl
    | succ k2 =>
      simp only [List.take_succ_cons, List.drop_succ_cons, mapBatch]
      rw [ih (i + 1) k2]
      cases hx : proc x i with
      | error e => simp [except_bind_error]
      | ok r =>
        simp only [except_bind_ok]
        cases hb : mapBatch proc (i + 1) (xs.take k2) with
        | error e => simp [except_bind_error]
        | ok bs =>
          simp only [except_bind_ok]
          have harith : i + 1 + k2 = i + (k2 + 1) := by omega
          rw [harith]
          cases hr : mapBatch proc (i + (k2 + 1)) (xs.drop k2) with
          | error e => simp [except_bind_error]
          | ok rs => simp [except_bind_ok]

/-- With a positive concurrency bound, the chunked loop computes the same
indexed batch evaluation as a single pass over all items. -/
theorem processBatches_eq_mapBatch {α β ε : Type} (proc : α → Nat → Except ε (Option β))
    {c : Nat} (hc : 1 ≤ c) :
    ∀ (l : List α) (i : Nat), processBatches proc c l i = mapBatch proc i l := by
  suffices H : ∀ (n : Nat) (l : List α), l.length ≤ n → ∀ i,
      processBatches proc c l i = mapBatch proc i l by
    intro l i
    exact H l.length l (Nat.le_refl _) i
  intro n
  induction n with
  | zero =>
    intro l hl i
    have : l = [] := List.length_eq_zero.mp (Nat.le_zero.mp hl)
    subst this
    simp [processBatches, mapBatch]
  | succ n ih =>
    intro l hl i
    cases l with
    | nil => simp [processBatches, mapBatch]
    | cons x xs =>
      obtain ⟨c2, rfl⟩ : ∃ c2, c = c2 + 1 := ⟨c - 1, by omega⟩
      simp only [processBatches]
      have hlen : (xs.drop (c2 + 1 - 1)).length ≤ n := by
        have h1 : xs.length ≤ n := by
          simp only [List.length_cons] at hl
          omega
        have h2 := List.length_drop (c2 + 1 - 1) xs
        omega
      rw [ih (xs.drop (c2 + 1 - 1)) hlen]
      have hdrop : xs.drop (c2 + 1 - 1) = (x :: xs).drop (c2 + 1) := by
        simp [List.drop_succ_cons]
      rw [hdrop]
      exact (mapBatch_take_drop proc (x :: xs) i (c2 + 1)).symm

/-- Pure processors: the batch evaluation is the indexed map. -/
theorem mapBatch_pure {α β ε : Type} (f : α → Nat → Option β) :
    ∀ (l : List α) (i : Nat),
      mapBatch (fun a j => (Except.ok (f a j) : Except ε (Option β))) i l =
        Except.ok (pureMapIdx f i l) := by
  intro l
  induction l with
  | nil => intro i; rfl
  | cons x xs ih => intro i; simp [mapBatch, pureMapIdx, except_bind_ok, ih]

theorem pureMapIdx_length {α β : Type} (f : α → Nat → Option β) :
    ∀ (l : List α) (i : Nat), (pureMapIdx f i l).length = l.length := by
  intro l
  induction l with
  | nil => intro i; rfl
  | cons x xs ih => intro i; simp [pureMapIdx, ih]

theorem pureMapIdx_get {α β : Type} (f : α → Nat → Option β) :
    ∀ (l : List α) (i j : Nat) (h1 : j < (pureMapIdx f i l).length) (h2 : j < l.length),
      (pureMapIdx f i l).get ⟨j, h1⟩ = f (l.get ⟨j, h2⟩) (i + j) := by
  intro l
  induction l with
  | nil => intro i j h1 h2; simp at h2
  | cons x xs ih =>
    intro i j h1 h2
    cases j with
    | zero => simp [pureMapIdx]
    | succ j2 =>
      have h1x : j2 < (pureMapIdx f (i + 1) xs).length := by
        simp only [pureMapIdx, List.length_cons] at h1
        omega
      have h2x : j2 < xs.length := by
        simp only [List.length_cons] at h2
        omega
      have := ih (i + 1) j2 h1x h2x
      simp only [pureMapIdx, List.get_cons_succ, List.length_cons]
      rw [this]
      congr 1
      omega

/-- Chunks produced by the scheduling loop have length at most `c`. -/
theorem chunksOf_length_le {α : Type} (c : Nat) :
    ∀ (l : List α) (b : List α), b ∈ chunksOf c l → b.length ≤ c := by
  suffices H : ∀ (n : Nat) (l : List α), l.length ≤ n → ∀ b ∈ chunksOf c l, b.length ≤ c by
    intro l b hb
    exact H l.length l (Nat.le_refl _) b hb
  intro n
  induction n with
  | zero =>
    intro l hl b hb
    have : l = [] := List.length_eq_zero.mp (Nat.le_zero.mp hl)
    subst this
    simp [chunksOf] at hb
  | succ n ih =>
    intro l hl b hb
    cases l with
    | nil => simp [chunksOf] at hb
    | cons x xs =>
      simp only [chunksOf, List.mem_cons] at hb
      cases hb with
      | inl h =>
        subst h
        have := List.length_take_le c (x :: xs)
        exact this
      | inr h =>
        have hlen : (xs.drop (c - 1)).length ≤ n := by
          have h1 : xs.length ≤ n := by
            simp only [List.length_cons] at hl
            omega
          have h2 := List.length_drop (c - 1) xs
          omega
        exact ih (xs.drop (c - 1)) hlen b h

/-- With a positive concurrency bound the chunks concatenate back to the
input, in order. -/
theorem chunksOf_join {α : Type} {c : Nat} (hc : 1 ≤ c) :
    ∀ (l : List α), (chunksOf c l).flatten = l := by
  suffices H : ∀ (n : Nat) (l : List α), l.length ≤ n → (chunksOf c l).flatten = l by
    intro l
    exact H l.length l (Nat.le_refl _)
  intro n
  induction n with
  | zero =>
    intro l hl
    have : l = [] := List.length_eq_zero.mp (Nat.le_zero.mp hl)
    subst this
    simp [chunksOf]
  | succ n ih =>
    intro l hl
    cases l with
    | nil => simp [chunksOf]
    | cons x xs =>
      obtain ⟨c2, rfl⟩ : ∃ c2, c = c2 + 1 := ⟨c - 1, by omega⟩
      simp only [chunksOf, List.flatten_cons]
      have hlen : (xs.drop (c2 + 1 - 1)).length ≤ n := by
        have h1 : xs.length ≤ n := by
          simp only [List.length_cons] at hl
          omega
        have h2 := List.length_drop (c2 + 1 - 1) xs
        omega
      rw [ih (xs.drop (c2 + 1 - 1)) hlen]
      have : xs.drop (c2 + 1 - 1) = (x :: xs).drop (c2 + 1) := by
        simp [List.drop_succ_cons]
      rw [this]
      exact List.take_append_drop (c2 + 1) (x :: xs)

/-- The chunked loop is the strict chunk-by-chunk execution over its own
chunk decomposition. -/
theorem processBatches_eq_chunkedRun {α β ε : Type} (proc : α → Nat → Except ε (Option β))
    {c : Nat} (hc : 1 ≤ c) :
    ∀ (l : List α) (i : Nat),
      processBatches proc c l i = chunkedRun proc (chunksOf c l) i := by
  suffices H : ∀ (n : Nat) (l : List α), l.length ≤ n → ∀ i,
      processBatches proc c l i = chunkedRun proc (chunksOf c l) i by
    intro l i
    exact H l.length l (Nat.le_refl _) i
  intro n
  induction n with
  | zero =>
    intro l hl i
    have : l = [] := List.length_eq_zero.mp (Nat.le_zero.mp hl)
    subst this
    simp [processBatches, chunksOf, chunkedRun]
  | succ n ih =>
    intro l hl i
    cases l with
    | nil => simp [processBatches, chunksOf, chunkedRun]
    | cons x xs =>
      obtain ⟨c2, rfl⟩ : ∃ c2, c = c2 + 1 := ⟨c - 1, by omega⟩
      simp only [processBatches, chunksOf, chunkedRun]
      have hxslen : xs.length ≤ n := by
        simp only [List.length_cons] at hl
        omega
      have hlen : (xs.drop (c2 + 1 - 1)).length ≤ n := by
        have h2 := List.length_drop (c2 + 1 - 1) xs
        omega
      rw [ih (xs.drop (c2 + 1 - 1)) hlen]
      by_cases hc2 : c2 + 1 ≤ xs.length + 1
      · have htl : ((x :: xs).take (c2 + 1)).length = c2 + 1 := by
          rw [List.length_take]
          simp only [List.length_cons]
          omega
        rw [htl]
      · have hdrop : xs.drop (c2 + 1 - 1) = [] := by
          apply List.drop_eq_nil_of_le
          omega
        rw [hdrop]
        simp [chunksOf, chunkedRun]

/-! ## Claim C1 -/

/-- Claim C1, amended: for a pure (never-rejecting) processor and concurrency
at least 1, `processInBatches` computes `proc urls[i] i` for every index in
input order — the intermediate sequence has exactly the input length and
index correspondence — and then removes the null results, returning the
non-null results in input order. (As literally stated the claim is false:
the final `filter(Boolean)` makes the returned length the number of non-null
results, see the counterexample.) -/
theorem c1_scheduler_indexed_results {α β : Type} (f : α → Nat → Option β)
    (items : List α) (c : Nat) (hc : 1 ≤ c) :
    processInBatches items (fun a i => (Except.ok (f a i) : Except String (Option β))) c
        = Except.ok ((pureMapIdx f 0 items).filterMap id)
    ∧ (pureMapIdx f 0 items).length = items.length
    ∧ ∀ (j : Nat) (h1 : j < (pureMapIdx f 0 items).length) (h2 : j < items.length),
        (pureMapIdx f 0 items).get ⟨j, h1⟩ = f (items.get ⟨j, h2⟩) j := by
  refine ⟨?_, pureMapIdx_length f items 0, ?_⟩
  · unfold processInBatches
    rw [processBatches_eq_mapBatch _ hc, mapBatch_pure]
    rfl
  · intro j h1 h2
    have := pureMapIdx_get f items 0 j h1 h2
    simpa using this

/-- Witness for C1 at a concrete input: two items, concurrency 1. -/
theorem c1_scheduler_indexed_results_witness :
    processInBatches [10, 20] (fun a i => (Except.ok (some (a + i)) : Except String (Option Nat))) 1
      = Except.ok ((pureMapIdx (fun a i => some (a + i)) 0 [10, 20]).filterMap id) :=
  (c1_scheduler_indexed_results (fun a i => some (a + i)) [10, 20] 1 (by decide)).1

/-- Counterexample to C1 as stated: with one input URL whose processor result
is null, the returned sequence is empty — its length differs from the input
length, because of the final `filter(Boolean)`. -/
theorem c1_counterexample :
    processInBatches [0] (fun _ _ => (Except.ok none : Except String (Option Nat))) 1
        = Except.ok ([] : List Nat)
    ∧ ([] : List Nat).length ≠ ([0] : List Nat).length := by
  constructor
  · unfold processInBatches
    rw [processBatches_eq_mapBatch _ (by decide)]
    rfl
  · decide

/-! ## Claim C8 -/

/-- Claim C8: for concurrency `c ≥ 1` the scheduler partitions the input into
consecutive chunks of size at most `c` (which concatenate back to the input
in order), and its execution is exactly the strict chunk-by-chunk run: each
chunk is fully evaluated before the next one starts, so no more than `c`
item pipelines (hence fetches) are ever in flight together. -/
theorem c8_concurrency_ceiling {α β ε : Type} (proc : α → Nat → Except ε (Option β))
    (items : List α) (c : Nat) (hc : 1 ≤ c) :
    (∀ b ∈ chunksOf c items, b.length ≤ c)
    ∧ (chunksOf c items).flatten = items
    ∧ processBatches proc c items 0 = chunkedRun proc (chunksOf c items) 0 :=
  ⟨fun b hb => chunksOf_length_le c items b hb,
   chunksOf_join hc items,
   processBatches_eq_chunkedRun proc hc items 0⟩

/-- Witness for C8 at a concrete input: three items, concurrency 2, including
the concrete chunk decomposition. -/
theorem c8_concurrency_ceiling_witness :
    ((∀ b ∈ chunksOf 2 [1, 2, 3], b.length ≤ 2)
      ∧ (chunksOf 2 [1, 2, 3]).flatten = [1, 2, 3]
      ∧ processBatches (fun a i => (Except.ok (some (a + i)) : Except String (Option Nat))) 2 [1, 2, 3] 0
          = chunkedRun (fun a i => (Except.ok (some (a + i)) : Except String (Option Nat))) (chunksOf 2 [1, 2, 3]) 0)
    ∧ chunksOf 2 [1, 2, 3] = [[1, 2], [3]] :=
  ⟨c8_concurrency_ceiling (fun a i => (Except.ok (some (a + i)) : Except String (Option Nat))) [1, 2, 3] 2 (by decide),
   by simp [chunksOf]⟩

/-- A true `startsWithS2` exposes the first two characters. -/
theorem startsWithS2_shape {s : String} (h : startsWithS2 s = true) :
    ∃ t, s.data = 's' :: '/' :: t := by
  unfold startsWithS2 at h
  cases hd : s.data with
  | nil => rw [hd] at h; simp at h
  | cons a t1 =>
    cases t1 with
    | nil => rw [hd] at h; simp at h
    | cons b t2 =>
      rw [hd] at h
      simp at h
      obtain ⟨ha, hb⟩ := h
      subst ha
      subst hb
      exact ⟨t2, rfl⟩

/-- A command that does not start with `s/` passes through unchanged. -/
theorem substituteTitle_skip (rr : String → String → String → String → String)
    (rc : String → String → Bool)
    (title command : String) (h : startsWithS2 command = false) :
    substituteTitle rr rc title command = .ok title := by
  unfold substituteTitle
  rw [h]
  simp

/-- A command starting with `s/` that fails the substitution regex throws. -/
theorem substituteTitle_throw (rr : String → String → String → String → String)
    (rc : String → String → Bool)
    (title command : String) (hs : startsWithS2 command = true)
    (hm : matchSubstCmd command = none) :
    substituteTitle rr rc title command = .error "Invalid substitution command format" := by
  obtain ⟨t, ht⟩ := startsWithS2_shape hs
  unfold substituteTitle
  simp only [ht, hs, List.isEmpty_cons, List.length_cons, Bool.not_true, Bool.or_false,
    Bool.false_or]
  have hlen : decide (t.length + 1 + 1 < 1) = false := by simp
  simp only [hlen, Bool.false_or, if_false]
  unfold parseSubstitutionCommand
  rw [hm]
  rfl

/-- A command starting with `s/` that matches the shape but whose pattern and
flags fail RegExp compilation throws the modeled SyntaxError. -/
theorem substituteTitle_compile_throw (rr : String → String → String → String → String)
    (rc : String → String → Bool)
    (title command : String) (q : String × String × String)
    (hs : startsWithS2 command = true) (hm : matchSubstCmd command = some q)
    (hrc : rc q.1 q.2.2 = false) :
    substituteTitle rr rc title command
      = .error "SyntaxError: invalid regular expression" := by
  obtain ⟨t, ht⟩ := startsWithS2_shape hs
  unfold substituteTitle
  simp only [ht, hs, List.isEmpty_cons, List.length_cons, Bool.not_true, Bool.or_false,
    Bool.false_or]
  have hlen : decide (t.length + 1 + 1 < 1) = false := by simp
  simp only [hlen, Bool.false_or, if_false]
  have hp : parseSubstitutionCommand rc command
      = .error "SyntaxError: invalid regular expression" := by
    unfold parseSubstitutionCommand
    rw [hm]
    simp [hrc]
  rw [hp]
  rfl

/-- A command starting with `s/` that matches the shape and compiles
rewrites through the replace oracle. -/
theorem substituteTitle_parse (rr : String → String → String → String → String)
    (rc : String → String → Bool)
    (title command : String) (q : String × String × String)
    (hs : startsWithS2 command = true) (hm : matchSubstCmd command = some q)
    (hrc : rc q.1 q.2.2 = true) :
    substituteTitle rr rc title command = .ok (rr q.1 q.2.2 q.2.1 title) := by
  obtain ⟨t, ht⟩ := startsWithS2_shape hs
  unfold substituteTitle
  simp only [ht, hs, List.isEmpty_cons, List.length_cons, Bool.not_true, Bool.or_false,
    Bool.false_or]
  have hlen : decide (t.length + 1 + 1 < 1) = false := by simp
  simp only [hlen, Bool.false_or, if_false]
  have hp : parseSubstitutionCommand rc command = .ok q := by
    unfold parseSubstitutionCommand
    rw [hm]
    simp [hrc]
  rw [hp]
  rfl

/-- A well-formed command (skipped, or shape-matching and compiling) never
throws. -/
theorem substituteTitle_ok_of (rr : String → String → String → String → String)
    (rc : String → String → Bool)
    (title command : String)
    (h : startsWithS2 command = true →
      ∃ q, matchSubstCmd command = some q ∧ rc q.1 q.2.2 = true) :
    ∃ t2, substituteTitle rr rc title command = .ok t2 := by
  cases hs : startsWithS2 command with
  | false => exact ⟨title, substituteTitle_skip rr rc title command hs⟩
  | true =>
    obtain ⟨q, hq, hrc⟩ := h hs
    exact ⟨rr q.1 q.2.2 q.2.1 title, substituteTitle_parse rr rc title command q hs hq hrc⟩

/-- The title rewrite pipeline never throws when every configured command is
well formed. -/
theorem rewriteAndClean_ok_of (rr : String → String → String → String → String)
    (rc : String → String → Bool)
    (cmds : List String) (title : String)
    (h : ∀ cmd ∈ cmds, startsWithS2 cmd = true →
      ∃ q, matchSubstCmd cmd = some q ∧ rc q.1 q.2.2 = true) :
    ∃ t2, rewriteAndClean rr rc cmds title = .ok t2 := by
  unfold rewriteAndClean
  induction cmds generalizing title with
  | nil => exact ⟨cleanTitle title, rfl⟩
  | cons c cs ih =>
    obtain ⟨t1, ht1⟩ := substituteTitle_ok_of rr rc title c (h c (List.mem_cons_self c cs))
    have hrest : ∀ cmd ∈ cs, startsWithS2 cmd = true →
        ∃ q, matchSubstCmd cmd = some q ∧ rc q.1 q.2.2 = true :=
      fun cmd hm => h cmd (List.mem_cons_of_mem c hm)
    obtain ⟨t2, ht2⟩ := ih t1 hrest
    refine ⟨t2, ?_⟩
    rw [List.foldlM_cons, ht1]
    rw [except_bind_ok]
    exact ht2

/-- A never-rejecting processor makes the batch evaluation succeed. -/
theorem mapBatch_ok_of {α β ε : Type} (proc : α → Nat → Except ε (Option β))
    (h : ∀ a i, ∃ r, proc a i = .ok r) :
    ∀ (l : List α) (i : Nat), ∃ rs, mapBatch proc i l = .ok rs := by
  intro l
  induction l with
  | nil => intro i; exact ⟨[], rfl⟩
  | cons x xs ih =>
    intro i
    obtain ⟨r, hr⟩ := h x i
    obtain ⟨rs, hrs⟩ := ih (i + 1)
    refine ⟨r :: rs, ?_⟩
    simp only [mapBatch, hr, except_bind_ok, hrs]

/-- A never-rejecting processor makes the whole scheduler succeed. -/
theorem processInBatches_ok_of {α β ε : Type} (items : List α)
    (proc : α → Nat → Except ε (Option β)) {c : Nat} (hc : 1 ≤ c)
    (h : ∀ a i, ∃ r, proc a i = .ok r) :
    ∃ rs, processInBatches items proc c = .ok rs := by
  unfold processInBatches
  rw [processBatches_eq_mapBatch proc hc]
  obtain ⟨rs, hrs⟩ := mapBatch_ok_of proc h items 0
  exact ⟨rs.filterMap id, by rw [hrs]; rfl⟩

/-- With only well-formed substitution commands, the per-URL pipeline of
`gen` always resolves (to a skip or to a page result). -/
theorem processUrl_ok_of (env : CrawlEnv) (url : String)
    (h : ∀ cmd ∈ env.replaceTitle, startsWithS2 cmd = true →
      ∃ q, matchSubstCmd cmd = some q ∧ env.regexCompiles q.1 q.2.2 = true) :
    ∃ r, processUrl env url = .ok r := by
  unfold processUrl
  cases hf : passesFilter env url with
  | false => exact ⟨none, by simp [hf]⟩
  | true =>
    simp only [hf, Bool.not_true, Bool.false_eq_true, if_false]
    cases hfetch : env.fetchHtml url with
    | none => exact ⟨none, rfl⟩
    | some html =>
      cases hhe : html.data.isEmpty with
      | true => exact ⟨none, by simp [hhe]⟩
      | false =>
        simp only [hhe, Bool.false_eq_true, if_false]
        cases htit : env.getTitle html with
        | none => exact ⟨none, rfl⟩
        | some t0 =>
          cases ht0 : t0.data.isEmpty with
          | true => exact ⟨none, by simp [ht0]⟩
          | false =>
            simp only [ht0, Bool.false_eq_true, if_false]
            obtain ⟨t2, ht2⟩ :=
              rewriteAndClean_ok_of env.regexReplace env.regexCompiles env.replaceTitle t0 h
            refine ⟨some ⟨t2, url, env.getDescription html, parseSection url⟩, ?_⟩
            rw [ht2, except_bind_ok]

/-! ## Claim C2 -/

/-- Claim C2, amended: network failures, empty bodies and missing titles are
absorbed inside the per-URL pipeline as `null` results, and with well-formed
substitution commands — each either not starting with `s/`, or matching the
substitution shape with a pattern and flags that RegExp compiles — nothing
is ever thrown out of the pipeline or the scheduler; however a command
beginning with `s/` that fails the shape match, or whose captured pattern
and flags fail RegExp compilation, escapes as an error mid-pipeline (see the
counterexample). -/
theorem c2_soft_failure_isolation (env : CrawlEnv) (url : String) :
    (env.fetchHtml url = none → processUrl env url = .ok none)
    ∧ (∀ html, env.fetchHtml url = some html → env.getTitle html = none →
        processUrl env url = .ok none)
    ∧ ((∀ cmd ∈ env.replaceTitle, startsWithS2 cmd = true →
          ∃ q, matchSubstCmd cmd = some q ∧ env.regexCompiles q.1 q.2.2 = true) →
        (∃ r, processUrl env url = .ok r)
        ∧ ∀ (urls : List String) (c : Nat), 1 ≤ c →
            ∃ rs, processInBatches urls (fun u _ => processUrl env u) c = .ok rs) := by
  refine ⟨?_, ?_, ?_⟩
  · intro hfetch
    unfold processUrl
    cases hf : passesFilter env url with
    | false => simp [hf]
    | true => simp [hf, hfetch]
  · intro html hfetch htit
    unfold processUrl
    cases hf : passesFilter env url with
    | false => simp [hf]
    | true =>
      simp only [hf, Bool.not_true, Bool.false_eq_true, if_false, hfetch]
      cases hhe : html.data.isEmpty with
      | true => simp [hhe]
      | false => simp [hhe, htit]
  · intro hcmds
    refine ⟨processUrl_ok_of env url hcmds, ?_⟩
    intro urls c hc
    exact processInBatches_ok_of urls _ hc (fun u _ => processUrl_ok_of env u hcmds)

/-- An environment whose fetch always fails (soft network failure). -/
def noFetchEnv : CrawlEnv :=
  { excludePaths := [], includePaths := [], globMatch := fun _ _ => false,
    fetchHtml := fun _ => none, getTitle := fun _ => none,
    getDescription := fun _ => none, replaceTitle := [],
    regexReplace := fun _ _ _ t => t, regexCompiles := fun _ _ => true,
    selectMain := fun _ => none, turndown := fun h => h, lastmod := fun _ => none }

/-- Witness for C2: a failing fetch is absorbed as a null result. -/
theorem c2_soft_failure_isolation_witness :
    processUrl noFetchEnv "https://x.test/a" = .ok none :=
  (c2_soft_failure_isolation noFetchEnv "https://x.test/a").1 rfl

/-- An environment configured with the malformed substitution command `s/x`
whose fetch and title extraction succeed. -/
def badCmdEnv : CrawlEnv :=
  { noFetchEnv with
    fetchHtml := fun _ => some "<title>T</title>",
    getTitle := fun _ => some "T",
    replaceTitle := ["s/x"] }

/-- An environment configured with `s/(/x/`: the command matches the
substitution shape (pattern `(`, replacement `x`, empty flags), but the
regex engine rejects the unmatched parenthesis, modeled by an oracle that
refuses patterns containing `(`. -/
def badRegexEnv : CrawlEnv :=
  { noFetchEnv with
    fetchHtml := fun _ => some "<title>T</title>",
    getTitle := fun _ => some "T",
    replaceTitle := ["s/(/x/"],
    regexCompiles := fun p _ => !(p.data.contains '(') }

/-- Counterexample to C2 as stated: with the malformed command `s/x`
configured, a page whose fetch and title extraction succeed makes the
per-URL pipeline throw, and the error propagates out of the scheduler — a
failure arising inside the Extractor stage of the pipeline is not converted
into a null result or skip record. The same happens for the shape-matching
command `s/(/x/` whose pattern fails RegExp compilation. -/
theorem c2_counterexample :
    processUrl badCmdEnv "https://x.test/a" = .error "Invalid substitution command format"
    ∧ processInBatches ["https://x.test/a"] (fun u _ => processUrl badCmdEnv u) 1
        = .error "Invalid substitution command format"
    ∧ processUrl badRegexEnv "https://x.test/a"
        = .error "SyntaxError: invalid regular expression" := by
  have h1 : processUrl badCmdEnv "https://x.test/a"
      = .error "Invalid substitution command format" := rfl
  refine ⟨h1, ?_, rfl⟩
  unfold processInBatches
  rw [processBatches_eq_mapBatch _ (by decide)]
  simp only [mapBatch, h1, except_bind_error]
  rfl

/-! ## Claim C3 -/

/-- Claim C3, amended: malformed substitution commands are not validated at
configuration time at all. A command that does not start with `s/` (such as
`not-a-command`) is silently ignored, the title passing through unchanged
with no error ever raised; a command starting with `s/` that does not match
the `s/pattern/replacement/flags` shape raises its error only when a title is
first rewritten, mid-crawl, after the page has already been fetched. -/
theorem c3_no_config_time_validation (rr : String → String → String → String → String)
    (rc : String → String → Bool) (title command : String) :
    (startsWithS2 command = false → substituteTitle rr rc title command = .ok title)
    ∧ (startsWithS2 command = true → matchSubstCmd command = none →
        substituteTitle rr rc title command = .error "Invalid substitution command format") :=
  ⟨substituteTitle_skip rr rc title command, substituteTitle_throw rr rc title command⟩

/-- Witness for C3: the two concrete behaviors at `not-a-command` and `s/x`. -/
theorem c3_no_config_time_validation_witness :
    substituteTitle (fun _ _ _ t => t) (fun _ _ => true) "My Title" "not-a-command"
        = .ok "My Title"
    ∧ substituteTitle (fun _ _ _ t => t) (fun _ _ => true) "My Title" "s/x"
        = .error "Invalid substitution command format" :=
  ⟨(c3_no_config_time_validation (fun _ _ _ t => t) (fun _ _ => true)
      "My Title" "not-a-command").1 (by decide),
   (c3_no_config_time_validation (fun _ _ _ t => t) (fun _ _ => true)
      "My Title" "s/x").2 (by decide) (by decide)⟩

/-- An environment configured with the claim's own malformed command
`not-a-command`, with successful fetch and title extraction. -/
def notACmdEnv : CrawlEnv :=
  { noFetchEnv with
    fetchHtml := fun _ => some "<title>T</title>",
    getTitle := fun _ => some "T",
    replaceTitle := ["not-a-command"] }

/-- Counterexample to C3 as stated: with the malformed command
`not-a-command` configured, no configuration error is ever raised — the URL
is fetched and fully processed into a page result, the malformed command
being silently skipped. The run is not aborted before any fetch. -/
theorem c3_counterexample :
    processUrl notACmdEnv "https://x.test/docs/a"
      = .ok (some { title := "T", url := "https://x.test/docs/a",
                    description := none, sect := "docs" }) := rfl

/-! ## Claim C5 -/

/-- Claim C5: the filter decision of the per-URL pipeline holds exactly when
the URL matches no exclude pattern and (the include list is empty, or the URL
matches some include pattern while matching no exclude pattern — the ignore
list picomatch applies inside the include matcher). The decision is a pure
Boolean function of the compiled rule sets: deterministic, no I/O. -/
theorem c5_filter_eligibility (env : CrawlEnv) (url : String) :
    passesFilter env url = true ↔
      (picomatchAny env.globMatch env.excludePaths url = false
        ∧ (env.includePaths = []
            ∨ (picomatchAny env.globMatch env.includePaths url = true
                ∧ picomatchAny env.globMatch env.excludePaths url = false))) := by
  unfold passesFilter isExcluded isIncluded picomatchIgnoring
  cases hex : picomatchAny env.globMatch env.excludePaths url <;>
    cases hinc : picomatchAny env.globMatch env.includePaths url <;>
      cases hip : env.includePaths <;>
        simp_all

/-- Dropping a prefix is idempotent. -/
theorem dropWhile_idem (w : Char → Bool) (l : List Char) :
    (l.dropWhile w).dropWhile w = l.dropWhile w := by
  induction l with
  | nil => rfl
  | cons c l ih =>
    by_cases hc : w c
    · simp [List.dropWhile_cons, hc, ih]
    · simp [List.dropWhile_cons, hc]

/-- Prefix dropping across a one-element extension on the right. -/
theorem dropWhile_append_one (w : Char → Bool) (c : Char) :
    ∀ (l : List Char), (l ++ [c]).dropWhile w =
      match l.dropWhile w with
      | [] => [c].dropWhile w
      | x :: xs => x :: (xs ++ [c]) := by
  intro l
  induction l with
  | nil => simp
  | cons a l ih =>
    by_cases ha : w a
    · simp only [List.cons_append, List.dropWhile_cons, ha, if_true, ih]
    · simp [List.dropWhile_cons, ha]

/-- Left trimming after right trimming equals right trimming after left
trimming. -/
theorem trim_comm (w : Char → Bool) :
    ∀ (l : List Char),
      ((l.dropWhile w).reverse.dropWhile w).reverse
        = ((l.reverse.dropWhile w).reverse).dropWhile w := by
  intro l
  induction l with
  | nil => rfl
  | cons c l ih =>
    rw [List.reverse_cons, dropWhile_append_one w c l.reverse]
    by_cases hc : w c = true
    · rw [List.dropWhile_cons_of_pos hc, ih]
      cases hD : l.reverse.dropWhile w with
      | nil => simp [List.dropWhile_cons_of_pos hc]
      | cons x xs => simp [List.dropWhile_cons_of_pos hc]
    · rw [List.dropWhile_cons_of_neg hc, List.reverse_cons,
        dropWhile_append_one w c l.reverse]
      cases hD : l.reverse.dropWhile w with
      | nil => simp [List.dropWhile_cons_of_neg hc]
      | cons x xs => simp [List.dropWhile_cons_of_neg hc]

/-- The regex-plus-trim cleanup of the source equals the specification-side
strip-then-trim description. -/
theorem cleanTitle_eq_spec (title : String) : cleanTitle title = cleanTitleSpec title := by
  obtain ⟨d⟩ := title
  cases d with
  | nil => rfl
  | cons c rest =>
    have hne : (⟨c :: rest⟩ : String) ≠ "" := by
      intro h
      have := congrArg String.data h
      simp at this
    rw [cleanTitle, if_neg hne]
    by_cases hc : c = '|'
    · subst hc
      have h1 : stripLeadBar ⟨'|' :: rest⟩ = (rest.dropWhile isJsWs).asString := rfl
      have h2 : jsTrim ((rest.dropWhile isJsWs).asString)
          = ((((rest.dropWhile isJsWs).dropWhile isJsWs).reverse.dropWhile isJsWs).reverse).asString :=
        rfl
      have h3 : cleanTitleSpec ⟨'|' :: rest⟩
          = ((((rest.dropWhile isJsWs).reverse.dropWhile isJsWs).reverse).dropWhile isJsWs).asString := by
        unfold cleanTitleSpec stripBarSpec trimSpecRL
        simp
      rw [h1, h2, h3, dropWhile_idem]
      have h4 := trim_comm isJsWs (rest.dropWhile isJsWs)
      rw [dropWhile_idem] at h4
      exact congrArg List.asString h4
    · have h1 : stripLeadBar ⟨c :: rest⟩ = ⟨c :: rest⟩ := by
        unfold stripLeadBar
        split
        · rename_i r heq
          injection heq with hch htl
          exact absurd hch hc
        · rfl
      have h2 : jsTrim ⟨c :: rest⟩
          = ((((c :: rest).dropWhile isJsWs).reverse.dropWhile isJsWs).reverse).asString := rfl
      have h3 : cleanTitleSpec ⟨c :: rest⟩
          = ((((c :: rest).reverse.dropWhile isJsWs).reverse).dropWhile isJsWs).asString := by
        unfold cleanTitleSpec stripBarSpec trimSpecRL
        simp [hc]
      rw [h1, h2, h3]
      exact congrArg List.asString (trim_comm isJsWs (c :: rest))

/-! ## Claim C9 -/

/-- Claim C9: with an empty substitution command list, the title rewrite
pipeline of `processUrl` returns exactly the cleanup of the raw title —
stripping a single leading pipe with its following whitespace and trimming
surrounding whitespace — and nothing else. -/
theorem c9_empty_rewrite_is_cleanup (rr : String → String → String → String → String)
    (rc : String → String → Bool) (title : String) :
    rewriteAndClean rr rc [] title = .ok (cleanTitleSpec title) := by
  have h : rewriteAndClean rr rc [] title = .ok (cleanTitle title) := rfl
  rw [h, cleanTitle_eq_spec]

/-- The head piece of a character split is the longest separator-free
prefix. -/
theorem splitChar_shape (sep : Char) :
    ∀ (cs : List Char), ∃ ss,
      splitChar sep cs = (cs.takeWhile (fun c => c != sep)) :: ss := by
  intro cs
  induction cs with
  | nil => exact ⟨[], rfl⟩
  | cons c rest ih =>
    obtain ⟨ss, hss⟩ := ih
    by_cases hc : c = sep
    · subst hc
      refine ⟨(rest.takeWhile (fun d => d != c)) :: ss, ?_⟩
      simp only [splitChar]
      rw [hss]
      simp
    · have hcb : (c == sep) = false := by simp [hc]
      refine ⟨ss, ?_⟩
      simp only [splitChar]
      rw [hss]
      simp [hcb, List.takeWhile_cons, hc]

/-- Relating the split-filter-head computation of `parseSection` to the
specification-side first segment. -/
theorem splitChar_filter_head (cs : List Char) :
    ((splitChar '/' cs).filter (fun s => !s.isEmpty)).head? = specFirstSeg cs := by
  induction cs with
  | nil => rfl
  | cons c rest ih =>
    by_cases hc : c = '/'
    · subst hc
      obtain ⟨ss, hss⟩ := splitChar_shape '/' rest
      have hsplit : splitChar '/' ('/' :: rest)
          = [] :: (rest.takeWhile (fun d => d != '/')) :: ss := by
        simp only [splitChar]
        rw [hss]
        simp
      rw [hsplit]
      rw [hss] at ih
      have hspec : specFirstSeg ('/' :: rest) = specFirstSeg rest := by
        unfold specFirstSeg
        simp [List.dropWhile_cons]
      rw [hspec]
      rw [← ih]
      simp
    · obtain ⟨ss, hss⟩ := splitChar_shape '/' (c :: rest)
      rw [hss]
      have hcb : (c == '/') = false := by simp [hc]
      have htake : (c :: rest).takeWhile (fun d => d != '/')
          = c :: rest.takeWhile (fun d => d != '/') := by
        simp [List.takeWhile_cons, hcb, hc]
      rw [htake]
      have hfilter : ((c :: rest.takeWhile (fun d => d != '/')) :: ss).filter
            (fun s => !s.isEmpty)
          = (c :: rest.takeWhile (fun d => d != '/'))
              :: ss.filter (fun s => !s.isEmpty) := by
        simp [List.filter_cons]
      rw [hfilter]
      unfold specFirstSeg
      simp [List.dropWhile_cons, hcb, List.takeWhile_cons, hc]

/-! ## Claim C6 -/

/-- Claim C6: whenever the URL parses, the section key is the first non-empty
path segment of its pathname, case preserved, and `ROOT` when the path has no
segments; in particular the two concrete examples of the specification. -/
theorem c6_section_from_first_segment :
    (∀ (uri p : String), urlPathname uri = some p → parseSection uri = firstSegmentSpec p)
    ∧ parseSection "https://x.test/" = "ROOT"
    ∧ parseSection "https://x.test/docs/intro" = "docs" := by
  refine ⟨?_, rfl, rfl⟩
  intro uri p h
  unfold parseSection
  rw [h]
  show (match (splitChar '/' p.data).filter (fun s => !s.isEmpty) with
    | [] => "ROOT"
    | seg :: _ => seg.asString) = firstSegmentSpec p
  have hb := splitChar_filter_head p.data
  unfold firstSegmentSpec
  cases hf : (splitChar '/' p.data).filter (fun s => !s.isEmpty) with
  | nil =>
    rw [hf] at hb
    simp only [List.head?_nil] at hb
    rw [← hb]
  | cons seg segs =>
    rw [hf] at hb
    simp only [List.head?_cons] at hb
    rw [← hb]

/-- Witness for C6 on a fresh concrete URL. -/
theorem c6_section_from_first_segment_witness :
    urlPathname "https://x.test/blog/c" = some "/blog/c"
    ∧ parseSection "https://x.test/blog/c" = firstSegmentSpec "/blog/c"
    ∧ firstSegmentSpec "/blog/c" = "blog" :=
  ⟨rfl, c6_section_from_first_segment.1 "https://x.test/blog/c" "/blog/c" rfl, rfl⟩

/-! ## Claim C10 -/

/-- Claim C10: `parseSection` is a total function; on any input the URL
parser rejects (the modeled catch branch), it returns the reserved key
`ROOT`, so malformed sitemap entries are silently grouped under ROOT. -/
theorem c10_parse_section_total (uri : String) (h : urlPathname uri = none) :
    parseSection uri = "ROOT" := by
  unfold parseSection
  rw [h]

/-- Witness for C10 at a concrete unparsable input. -/
theorem c10_parse_section_total_witness :
    urlPathname "not a url" = none ∧ parseSection "not a url" = "ROOT" :=
  ⟨rfl, c10_parse_section_total "not a url" rfl⟩

/-- Each resolved call of the `genFull` per-URL closure pushes exactly one
record: one page info when it returns true, one skip record when it returns
null. -/
theorem processUrlFull_step (env : CrawlEnv) (st : FullState) (url : String)
    (st2 : FullState) (b : Bool) (h : processUrlFull env st url = .ok (st2, b)) :
    (b = true → st2.pageInfos.length = st.pageInfos.length + 1 ∧ st2.skipped = st.skipped)
    ∧ (b = false → st2.skipped.length = st.skipped.length + 1
        ∧ st2.pageInfos = st.pageInfos) := by
  unfold processUrlFull at h
  split at h
  · simp only [Except.ok.injEq, Prod.mk.injEq] at h
    obtain ⟨h1, h2⟩ := h
    subst h1
    subst h2
    exact ⟨fun hbt => by simp at hbt, fun _ => ⟨by simp, rfl⟩⟩
  · split at h
    · simp only [Except.ok.injEq, Prod.mk.injEq] at h
      obtain ⟨h1, h2⟩ := h
      subst h1
      subst h2
      exact ⟨fun hbt => by simp at hbt, fun _ => ⟨by simp, rfl⟩⟩
    · split at h
      · simp only [Except.ok.injEq, Prod.mk.injEq] at h
        obtain ⟨h1, h2⟩ := h
        subst h1
        subst h2
        exact ⟨fun hbt => by simp at hbt, fun _ => ⟨by simp, rfl⟩⟩
      · rename_i html hhtml
        split at h
        · simp only [Except.ok.injEq, Prod.mk.injEq] at h
          obtain ⟨h1, h2⟩ := h
          subst h1
          subst h2
          exact ⟨fun hbt => by simp at hbt, fun _ => ⟨by simp, rfl⟩⟩
        · split at h
          · simp only [Except.ok.injEq, Prod.mk.injEq] at h
            obtain ⟨h1, h2⟩ := h
            subst h1
            subst h2
            exact ⟨fun hbt => by simp at hbt, fun _ => ⟨by simp, rfl⟩⟩
          · rename_i t0 ht0
            split at h
            · simp only [Except.ok.injEq, Prod.mk.injEq] at h
              obtain ⟨h1, h2⟩ := h
              subst h1
              subst h2
              exact ⟨fun hbt => by simp at hbt, fun _ => ⟨by simp, rfl⟩⟩
            · cases hrw : rewriteAndClean env.regexReplace env.regexCompiles env.replaceTitle t0 with
              | error e =>
                rw [hrw, except_bind_error] at h
                simp at h
              | ok t =>
                rw [hrw, except_bind_ok] at h
                simp only [Except.ok.injEq, Prod.mk.injEq] at h
                obtain ⟨h1, h2⟩ := h
                subst h1
                subst h2
                exact ⟨fun _ => ⟨by simp, rfl⟩, fun hbf => by simp at hbf⟩

/-- With only well-formed substitution commands, the `genFull` closure always
resolves. -/
theorem processUrlFull_ok_of (env : CrawlEnv) (st : FullState) (url : String)
    (hcmds : ∀ cmd ∈ env.replaceTitle, startsWithS2 cmd = true →
      ∃ q, matchSubstCmd cmd = some q ∧ env.regexCompiles q.1 q.2.2 = true) :
    ∃ st2 b, processUrlFull env st url = .ok (st2, b) := by
  unfold processUrlFull
  split
  · exact ⟨_, _, rfl⟩
  · split
    · exact ⟨_, _, rfl⟩
    · split
      · exact ⟨_, _, rfl⟩
      · rename_i html hhtml
        split
        · exact ⟨_, _, rfl⟩
        · split
          · exact ⟨_, _, rfl⟩
          · rename_i t0 ht0
            split
            · exact ⟨_, _, rfl⟩
            · obtain ⟨t2, ht2⟩ :=
                rewriteAndClean_ok_of env.regexReplace env.regexCompiles env.replaceTitle t0 hcmds
              rw [ht2, except_bind_ok]
              exact ⟨_, _, rfl⟩

/-- The `genFull` crawl accounts for every URL with exactly one record, when
every configured substitution command is well formed. -/
theorem runFull_count (env : CrawlEnv)
    (hcmds : ∀ cmd ∈ env.replaceTitle, startsWithS2 cmd = true →
      ∃ q, matchSubstCmd cmd = some q ∧ env.regexCompiles q.1 q.2.2 = true) :
    ∀ (urls : List String) (st : FullState),
      ∃ st2, runFull env urls st = .ok st2 ∧
        st2.pageInfos.length + st2.skipped.length
          = st.pageInfos.length + st.skipped.length + urls.length := by
  intro urls
  induction urls with
  | nil => intro st; exact ⟨st, rfl, by simp⟩
  | cons u us ih =>
    intro st
    obtain ⟨stm, b, hstep⟩ := processUrlFull_ok_of env st u hcmds
    obtain ⟨hbt, hbf⟩ := processUrlFull_step env st u stm b hstep
    obtain ⟨st2, hrun, hcount⟩ := ih stm
    have hstm : stm.pageInfos.length + stm.skipped.length
        = st.pageInfos.length + st.skipped.length + 1 := by
      cases b with
      | true =>
        obtain ⟨hp, hs⟩ := hbt rfl
        rw [hp, hs]
        omega
      | false =>
        obtain ⟨hs, hp⟩ := hbf rfl
        rw [hp, hs]
        omega
    refine ⟨st2, ?_, ?_⟩
    · unfold runFull
      rw [hstep, except_bind_ok]
      exact hrun
    · simp only [List.length_cons]
      omega

/-! ## Claim C4 -/

/-- Claim C4, amended: every resolved per-URL call of `genFull` yields
exactly one record — a page info (returning true) or a skip record
(returning null), never both, never neither — and when every configured
substitution command is well formed (not starting with `s/`, or
shape-matching with a RegExp-compilable pattern and flags) the whole crawl
resolves with `count(pageInfos) + count(skipped)` growing by exactly the
number of URLs. (As universally stated the claim is false: an `s/`-command
failing the shape match or RegExp compilation aborts the run mid-crawl,
leaving the throwing URL accounted for by neither list, see the
counterexample.) -/
theorem c4_exactly_one_record :
    (∀ (env : CrawlEnv) (st : FullState) (url : String) (st2 : FullState) (b : Bool),
        processUrlFull env st url = .ok (st2, b) →
          (b = true → st2.pageInfos.length = st.pageInfos.length + 1
              ∧ st2.skipped = st.skipped)
          ∧ (b = false → st2.skipped.length = st.skipped.length + 1
              ∧ st2.pageInfos = st.pageInfos))
    ∧ (∀ (env : CrawlEnv),
        (∀ cmd ∈ env.replaceTitle, startsWithS2 cmd = true →
          ∃ q, matchSubstCmd cmd = some q ∧ env.regexCompiles q.1 q.2.2 = true) →
        ∀ (urls : List String) (st : FullState),
          ∃ st2, runFull env urls st = .ok st2 ∧
            st2.pageInfos.length + st2.skipped.length
              = st.pageInfos.length + st.skipped.length + urls.length) :=
  ⟨processUrlFull_step, runFull_count⟩

/-- Witness for C4: a concrete skip step (fetch failure) adds exactly one
skip record and no page info. -/
theorem c4_exactly_one_record_witness :
    (false = true →
        (FullState.mk [⟨"https://x.test/a", "fetch failed"⟩] []).pageInfos.length
          = (FullState.mk [] []).pageInfos.length + 1
        ∧ (FullState.mk [⟨"https://x.test/a", "fetch failed"⟩] []).skipped
          = (FullState.mk [] []).skipped)
    ∧ (false = false →
        (FullState.mk [⟨"https://x.test/a", "fetch failed"⟩] []).skipped.length
          = (FullState.mk [] []).skipped.length + 1
        ∧ (FullState.mk [⟨"https://x.test/a", "fetch failed"⟩] []).pageInfos
          = (FullState.mk [] []).pageInfos) :=
  c4_exactly_one_record.1 noFetchEnv ⟨[], []⟩ "https://x.test/a"
    ⟨[⟨"https://x.test/a", "fetch failed"⟩], []⟩ false rfl

/-- Counterexample to C4 as stated: with the malformed command `s/x` (shape
failure) or `s/(/x/` (RegExp compilation failure) configured, a one-URL run
whose fetch and title succeed aborts with an error; the URL ends in neither
the page list nor the skip list, so the counts cannot sum to the input
length. -/
theorem c4_counterexample :
    runFull badCmdEnv ["https://x.test/a"] ⟨[], []⟩
        = .error "Invalid substitution command format"
    ∧ runFull badRegexEnv ["https://x.test/a"] ⟨[], []⟩
        = .error "SyntaxError: invalid regular expression" :=
  ⟨rfl, rfl⟩

/-- Lookup after the push step of the grouping loop. -/
theorem lookupSec_addToSection (secs : List (String × List SectionLine))
    (k : String) (v : SectionLine) (k2 : String) :
    lookupSec (addToSection secs k v) k2
      = if k2 = k then some (((lookupSec secs k).getD []) ++ [v])
        else lookupSec secs k2 := by
  induction secs with
  | nil =>
    simp only [addToSection, lookupSec]
    by_cases h : k2 = k
    · subst h
      simp
    · simp [h, Ne.symm h]
  | cons p rest ih =>
    obtain ⟨k3, vs⟩ := p
    simp only [addToSection]
    by_cases h3 : k3 = k
    · subst h3
      simp only [beq_self_eq_true, if_true, lookupSec]
      by_cases h2 : k2 = k3
      · subst h2
        simp [lookupSec]
      · have hb : (k3 == k2) = false := by
          simp [Ne.symm h2]
        simp [lookupSec, hb, h2]
    · have hb3k : (k3 == k) = false := by
        simp [h3]
      simp only [hb3k, Bool.false_eq_true, if_false, lookupSec]
      by_cases h2 : k3 = k2
      · subst h2
        simp [hb3k, h3, fun hh => h3 (Eq.symm hh)]
      · have hb32 : (k3 == k2) = false := by
          simp [h2]
        simp only [hb32, Bool.false_eq_true, if_false]
        exact ih

/-- With no prototype-named section, the guarded grouping loop is the plain
fold of push steps. -/
theorem buildSectionsGo_eq_foldl (rs : List PageResult)
    (h : ∀ r ∈ rs, isProtoPropName r.sect = false) :
    ∀ acc, buildSectionsGo rs acc
      = rs.foldl (fun a r => addToSection a r.sect (lineOf r)) acc := by
  induction rs with
  | nil => intro acc; rfl
  | cons r rest ih =>
    intro acc
    have hr : isProtoPropName r.sect = false := h r (List.mem_cons_self r rest)
    have hrest : ∀ x ∈ rest, isProtoPropName x.sect = false :=
      fun x hx => h x (List.mem_cons_of_mem r hx)
    simp only [buildSectionsGo, hr, Bool.false_eq_true, if_false, List.foldl_cons]
    exact ih hrest (addToSection acc r.sect (lineOf r))

/-- The grouping loop stores, under every key, exactly the pages of that
section in append (input) order, provided no section name collides with an
`Object.prototype` property. -/
theorem buildSections_lookup (results : List PageResult)
    (hsect : ∀ r ∈ results, isProtoPropName r.sect = false) (k : String) :
    ((lookupSec (buildSections results) k).getD [])
      = (results.filter (fun r => r.sect == k)).map lineOf := by
  have hb : buildSections results
      = results.foldl (fun a r => addToSection a r.sect (lineOf r)) [] :=
    buildSectionsGo_eq_foldl results hsect []
  rw [hb]
  suffices H : ∀ (rs : List PageResult) (acc : List (String × List SectionLine)),
      ((lookupSec (rs.foldl (fun a r => addToSection a r.sect (lineOf r)) acc) k).getD [])
        = ((lookupSec acc k).getD []) ++ (rs.filter (fun r => r.sect == k)).map lineOf by
    have h := H results []
    simpa [lookupSec] using h
  intro rs
  induction rs with
  | nil => intro acc; simp
  | cons r rest ih =>
    intro acc
    rw [List.foldl_cons, ih, lookupSec_addToSection]
    by_cases h : k = r.sect
    · have hbk : (r.sect == k) = true := by
        simp [h]
      simp [h, hbk, List.filter_cons]
    · have hbk : (r.sect == k) = false := by
        simp only [beq_eq_false_iff_ne]
        exact fun hh => h (Eq.symm hh)
      simp [h, hbk, List.filter_cons]

/-- The key list after a push step: unchanged when the key exists, appended
otherwise. -/
theorem addToSection_keys (secs : List (String × List SectionLine))
    (k : String) (v : SectionLine) :
    (addToSection secs k v).map Prod.fst
      = if k ∈ secs.map Prod.fst then secs.map Prod.fst
        else secs.map Prod.fst ++ [k] := by
  induction secs with
  | nil => simp [addToSection]
  | cons p rest ih =>
    obtain ⟨k3, vs⟩ := p
    by_cases h3 : k3 = k
    · subst h3
      simp [addToSection]
    · have hb3 : (k3 == k) = false := by
        simp [h3]
      have hne : ¬ k = k3 := fun hh => h3 (Eq.symm hh)
      simp only [addToSection, hb3, Bool.false_eq_true, if_false, List.map_cons,
        List.mem_cons]
      rw [ih]
      by_cases hm : k ∈ rest.map Prod.fst
      · simp [hm, hne]
      · simp [hm, hne]

/-- The grouped key list is the first-seen order of the section names,
provided no section name collides with an `Object.prototype` property. -/
theorem buildSections_keys (results : List PageResult)
    (hsect : ∀ r ∈ results, isProtoPropName r.sect = false) :
    (buildSections results).map Prod.fst = firstSeen (results.map PageResult.sect) := by
  have hb : buildSections results
      = results.foldl (fun a r => addToSection a r.sect (lineOf r)) [] :=
    buildSectionsGo_eq_foldl results hsect []
  rw [hb]
  suffices H : ∀ (rs : List PageResult) (acc : List (String × List SectionLine)),
      ((rs.foldl (fun a r => addToSection a r.sect (lineOf r)) acc).map Prod.fst)
        = (rs.map PageResult.sect).foldl
            (fun acc x => if x ∈ acc then acc else acc ++ [x]) (acc.map Prod.fst) by
    have h := H results []
    simpa [firstSeen] using h
  intro rs
  induction rs with
  | nil => intro acc; simp
  | cons r rest ih =>
    intro acc
    rw [List.foldl_cons, ih, addToSection_keys, List.map_cons, List.foldl_cons]

/-- Deleting a key filters it out of the key list. -/
theorem eraseSec_keys (secs : List (String × List SectionLine)) (k : String) :
    (eraseSec secs k).map Prod.fst = (secs.map Prod.fst).filter (fun x => x != k) := by
  induction secs with
  | nil => rfl
  | cons p rest ih =>
    obtain ⟨k3, vs⟩ := p
    have ih2 : (rest.filter (fun p => p.1 != k)).map Prod.fst
        = (rest.map Prod.fst).filter (fun x => x != k) := by
      simpa [eraseSec] using ih
    by_cases h3 : (k3 != k) = true
    · simp [eraseSec, List.filter_cons, h3, ih2]
    · simp only [Bool.not_eq_true] at h3
      simp [eraseSec, List.filter_cons, h3, ih2]

/-- Membership through the insertion step of the numeric sort. -/
theorem mem_insertByNat (x k : String) (l : List String) :
    x ∈ insertByNat k l ↔ x = k ∨ x ∈ l := by
  induction l with
  | nil => simp [insertByNat]
  | cons y ys ih =>
    by_cases h : keyNat k ≤ keyNat y
    · simp [insertByNat, h, List.mem_cons]
    · simp [insertByNat, h, List.mem_cons, ih]
      tauto

/-- Membership is preserved by the numeric sort. -/
theorem mem_sortByNat (x : String) (l : List String) :
    x ∈ sortByNat l ↔ x ∈ l := by
  induction l with
  | nil => simp [sortByNat]
  | cons y ys ih => simp [sortByNat, mem_insertByNat, ih, List.mem_cons]

/-- The `for...in` enumeration only reorders the key list. -/
theorem mem_jsForInKeys (x : String) (keys : List String)
    (h : x ∈ jsForInKeys keys) : x ∈ keys := by
  unfold jsForInKeys at h
  rcases List.mem_append.mp h with h1 | h2
  · exact List.mem_of_mem_filter ((mem_sortByNat x _).mp h1)
  · exact List.mem_of_mem_filter h2

/-! ## Claim C7 -/

/-- Claim C7, amended: for runs in which no section name collides with an
`Object.prototype` property, the index-mode output never emits `ROOT` as a
section heading; the header is built from the ROOT-section pages extracted
in input order (the first ROOT result supplying title and description unless
the explicit options override them); every section stores one line per page
in append order; and the remaining sections are emitted in JavaScript
`for...in` order — array-index-like section names first in ascending numeric
order, then the others in first-seen order. (As literally stated the claim
is false twice over: the emission order is not plain first-seen order, and a
prototype-named section makes the grouping loop throw a caught TypeError
that silently drops it and every later page — see the counterexample.) -/
theorem c7_index_output_structure (jc : JsCase) (opts : GenOptions)
    (results : List PageResult)
    (hsect : ∀ r ∈ results, isProtoPropName r.sect = false) :
    "ROOT" ∉ genSectionKeys results
    ∧ genSectionKeys results
        = jsForInKeys ((firstSeen (results.map PageResult.sect)).filter (fun x => x != "ROOT"))
    ∧ (∀ k, (lookupSec (buildSections results) k).getD []
        = (results.filter (fun r => r.sect == k)).map lineOf)
    ∧ genOutput jc opts results
        = genHeader opts ((results.filter (fun r => r.sect == "ROOT")).map lineOf)
          ++ String.join ((genSectionKeys results).map
              (fun k => renderSection jc (eraseSec (buildSections results) "ROOT") k)) := by
  have hkeys : genSectionKeys results
      = jsForInKeys (((buildSections results).map Prod.fst).filter (fun x => x != "ROOT")) := by
    unfold genSectionKeys
    rw [eraseSec_keys]
  refine ⟨?_, ?_, buildSections_lookup results hsect, ?_⟩
  · intro hmem
    rw [hkeys] at hmem
    have h2 := mem_jsForInKeys _ _ hmem
    have h3 := List.of_mem_filter h2
    simp at h3
  · rw [hkeys, buildSections_keys results hsect]
  · show genHeader opts ((lookupSec (buildSections results) "ROOT").getD [])
        ++ String.join ((genSectionKeys results).map
            (fun k => renderSection jc (eraseSec (buildSections results) "ROOT") k))
      = genHeader opts ((results.filter (fun r => r.sect == "ROOT")).map lineOf)
        ++ String.join ((genSectionKeys results).map
            (fun k => renderSection jc (eraseSec (buildSections results) "ROOT") k))
    rw [buildSections_lookup results hsect "ROOT"]

/-- Concrete results with a numeric section name, first seen after `docs`. -/
def cexResultsC7 : List PageResult :=
  [⟨"A", "https://x.test/docs/a", none, "docs"⟩,
   ⟨"B", "https://x.test/2024/b", none, "2024"⟩]

/-- Concrete results whose first page has the prototype-colliding section
`constructor`, followed by an ordinary `docs` page. -/
def cexProtoResults : List PageResult :=
  [⟨"C", "https://x.test/constructor/a", none, "constructor"⟩,
   ⟨"B", "https://x.test/docs/b", none, "docs"⟩]

/-- Counterexample to C7 as stated, in two parts. Ordering: with sections
first seen in the order `docs`, `2024`, the emitted section keys are `2024`,
`docs` — the JS object enumeration puts the array-index-like key first — not
the first-seen order. Grouping: with a first page in section `constructor`,
the grouping loop throws on the inherited prototype property and the caught
error ends grouping, so the map stays empty and the later `docs` page is
dropped from the document instead of getting its bullet. -/
theorem c7_counterexample :
    (genSectionKeys cexResultsC7 = ["2024", "docs"]
      ∧ (firstSeen (cexResultsC7.map PageResult.sect)).filter (fun x => x != "ROOT")
          = ["docs", "2024"]
      ∧ genSectionKeys cexResultsC7
          ≠ (firstSeen (cexResultsC7.map PageResult.sect)).filter (fun x => x != "ROOT"))
    ∧ (buildSections cexProtoResults = []
      ∧ (lookupSec (buildSections cexProtoResults) "docs").getD [] = []
      ∧ (cexProtoResults.filter (fun r => r.sect == "docs")).map lineOf
          = [⟨"B", "https://x.test/docs/b", none⟩]
      ∧ genSectionKeys cexProtoResults = []) := by
  refine ⟨⟨?_, ?_, ?_⟩, ⟨?_, ?_, ?_, ?_⟩⟩ <;> decide

/-- Witness for C7 at the concrete results, with an identity case mapping,
discharging the no-prototype-collision hypothesis. -/
theorem c7_index_output_structure_witness :
    "ROOT" ∉ genSectionKeys cexResultsC7 :=
  (c7_index_output_structure ⟨fun u => u, fun u => u⟩ ⟨"", ""⟩ cexResultsC7 (by decide)).1
